import Mathlib

/-!
Verification development for the movement repository core.

Shallow embedding of:
* `util/collections/src/garbage/counted.rs` (`GcCounter`) and
  `util/collections/src/garbage/set.rs` (`GcSet`);
* `protocol-units/da/m1/light-node/src/v1/sequencer.rs`
  (`WrappedBlock`, the grouping-heuristic submission callback,
  `read_blocks`, `batch_write`, `make_sequenced_blob_intent`);
* `networks/suzuka/suzuka-full-node/src/partial.rs` (`read_commitment_events`).

Machine integers (`u64`) are modelled as `Nat`; the one place where u64
arithmetic can actually wrap on reachable inputs is the unchecked subtraction
in `gc`, which is modelled explicitly with `checkedSub` (Rust's `-` on `u64`
panics on underflow in debug builds and wraps in release builds; `none`
models that neither behaviour is a normal return).

`BTreeMap` is modelled as an association list sorted strictly ascending by
key; iteration in key order (`values_mut`, `keys`, `take_while`) then matches
list order, and `values_mut().rev()` matches reversed list order.
-/

/-- Rust `u64::checked_sub`; used to model the unchecked `-` in `gc`, whose
underflow is a panic (debug) or wrap (release) rather than a normal result. -/
def checkedSub (a b : Nat) : Option Nat :=
  if b ≤ a then some (a - b) else none

/-! ## GcCounter (util/collections/src/garbage/counted.rs) -/

/-- `GcCounter` from counted.rs: TTL and slot duration (both constructed via
`Duration::try_new`, hence strictly positive), and the per-slot counts
(`BTreeMap<u64, u64>` as a key-sorted association list). -/
structure GcCounter where
  value_ttl_ms : Nat
  gc_slot_duration_ms : Nat
  value_lifetimes : List (Nat × Nat)
deriving DecidableEq

/-- The loop body of `GcCounter::decrement`: walk slots in ascending key
order, subtract one from the first non-zero count, then stop. -/
def decLifetimes : List (Nat × Nat) → List (Nat × Nat)
  | [] => []
  | (k, v) :: rest =>
    if 0 < v then (k, v - 1) :: rest else (k, v) :: decLifetimes rest

/-- `GcCounter::decrement`. -/
def GcCounter.decrement (c : GcCounter) : GcCounter :=
  { c with value_lifetimes := decLifetimes c.value_lifetimes }

/-- Insert one unit into the slot of a key-sorted association list,
mirroring `value_lifetimes.get_mut(&slot)` / `insert(slot, 1)`. -/
def incSlot (slot : Nat) : List (Nat × Nat) → List (Nat × Nat)
  | [] => [(slot, 1)]
  | (k, v) :: rest =>
    if slot < k then (slot, 1) :: (k, v) :: rest
    else if slot = k then (k, v + 1) :: rest
    else (k, v) :: incSlot slot rest

/-- `GcCounter::increment`. -/
def GcCounter.increment (c : GcCounter) (current_time_ms : Nat) : GcCounter :=
  { c with value_lifetimes := incSlot (current_time_ms / c.gc_slot_duration_ms) c.value_lifetimes }

/-- Sum of the counts of an association list. -/
def sumCounts (l : List (Nat × Nat)) : Nat :=
  (l.map Prod.snd).sum

/-- `GcCounter::get_count`. -/
def GcCounter.get_count (c : GcCounter) : Nat :=
  sumCounts c.value_lifetimes

/-- `GcCounter::gc`. The source computes
`gc_slot - value_ttl_ms / gc_slot_duration_ms` with unchecked u64 `-`;
underflow (a panic or wrap, never a normal return) is modelled as `none`.
Removing the keys collected by `take_while(≤ cutoff)` from a key-sorted map
is `dropWhile` on the sorted list. -/
def GcCounter.gc (c : GcCounter) (current_time_ms : Nat) : Option GcCounter :=
  let gc_slot := current_time_ms / c.gc_slot_duration_ms
  match checkedSub gc_slot (c.value_ttl_ms / c.gc_slot_duration_ms) with
  | none => none
  | some slot_cutoff =>
    some { c with
      value_lifetimes := c.value_lifetimes.dropWhile (fun p => decide (p.1 ≤ slot_cutoff)) }

/-- The mass removed by one `gc` call: the counts in the prefix of slots
`≤ cutoff` (the complement of what `dropWhile` keeps). -/
def GcCounter.gcRemoved (c : GcCounter) (current_time_ms : Nat) : Nat :=
  let gc_slot := current_time_ms / c.gc_slot_duration_ms
  match checkedSub gc_slot (c.value_ttl_ms / c.gc_slot_duration_ms) with
  | none => 0
  | some slot_cutoff =>
    sumCounts (c.value_lifetimes.takeWhile (fun p => decide (p.1 ≤ slot_cutoff)))

/-! ## GcSet (util/collections/src/garbage/set.rs) -/

/-- `GcSet<V>` from set.rs: per-slot `HashSet<V>` buckets in a
`BTreeMap<u64, HashSet<V>>`, modelled as a key-sorted association list of
duplicate-free bucket lists. -/
structure GcSet (V : Type) where
  value_ttl_ms : Nat
  gc_slot_duration_ms : Nat
  value_lifetimes : List (Nat × List V)
deriving DecidableEq

/-- `GcSet::new`. -/
def GcSet.new (V : Type) (value_ttl_ms gc_slot_duration_ms : Nat) : GcSet V :=
  ⟨value_ttl_ms, gc_slot_duration_ms, []⟩

/-- The loop body of `GcSet::remove_value`, on the list in iteration order:
remove the value from the first bucket that contains it, then stop
(`if lifetimes.remove(value) break`). An emptied bucket stays in the map. -/
def removeFirstBucket {V : Type} [DecidableEq V] (v : V) :
    List (Nat × List V) → List (Nat × List V)
  | [] => []
  | (k, l) :: rest =>
    if v ∈ l then (k, l.erase v) :: rest else (k, l) :: removeFirstBucket v rest

/-- `GcSet::remove_value`: the source iterates `values_mut().rev()`, i.e.
newest slot first, hence the reversals. -/
def GcSet.remove_value {V : Type} [DecidableEq V] (s : GcSet V) (v : V) : GcSet V :=
  { s with value_lifetimes := (removeFirstBucket v s.value_lifetimes.reverse).reverse }

/-- `HashSet::insert`: a set never holds duplicates. -/
def bucketInsert {V : Type} [DecidableEq V] (v : V) (l : List V) : List V :=
  if v ∈ l then l else v :: l

/-- `entry(slot).or_insert_with(HashSet::new).insert(value)` on a key-sorted
association list. -/
def insertIntoSlot {V : Type} [DecidableEq V] (slot : Nat) (v : V) :
    List (Nat × List V) → List (Nat × List V)
  | [] => [(slot, [v])]
  | (k, l) :: rest =>
    if slot < k then (slot, [v]) :: (k, l) :: rest
    else if slot = k then (k, bucketInsert v l) :: rest
    else (k, l) :: insertIntoSlot slot v rest

/-- `GcSet::insert`: first `remove_value`, then insert into the slot of
`current_time_ms`. -/
def GcSet.insert {V : Type} [DecidableEq V] (s : GcSet V) (v : V) (current_time_ms : Nat) :
    GcSet V :=
  let s := s.remove_value v
  { s with value_lifetimes :=
      insertIntoSlot (current_time_ms / s.gc_slot_duration_ms) v s.value_lifetimes }

/-- `GcSet::contains`: scan every bucket. -/
def GcSet.contains {V : Type} [DecidableEq V] (s : GcSet V) (v : V) : Bool :=
  s.value_lifetimes.any (fun p => decide (v ∈ p.2))

/-- `GcSet::gc`; same unchecked subtraction and `take_while` removal as
`GcCounter::gc`. -/
def GcSet.gc {V : Type} (s : GcSet V) (current_time_ms : Nat) : Option (GcSet V) :=
  let gc_slot := current_time_ms / s.gc_slot_duration_ms
  match checkedSub gc_slot (s.value_ttl_ms / s.gc_slot_duration_ms) with
  | none => none
  | some slot_cutoff =>
    some { s with
      value_lifetimes := s.value_lifetimes.dropWhile (fun p => decide (p.1 ≤ slot_cutoff)) }

/-- C3 --- For every GcCounter and GcSet constructed with strictly positive
value_ttl_ms and gc_slot_duration_ms, the operation gc(current_time_ms) is
total for every u64 current_time_ms: it never panics or underflows, including
when current_time_ms / gc_slot_duration_ms is smaller than
value_ttl_ms / gc_slot_duration_ms.  REFUTED on the code: with
value_ttl_ms = 100, gc_slot_duration_ms = 10 (both positive, as
`Duration::try_new` accepts), `gc(50)` computes `50/10 - 100/10 = 5 - 10`
with unchecked u64 subtraction, which underflows; the operation has no
normal result (debug builds panic, release builds wrap the cutoff to
about 2^64 and collect every bucket). -/
theorem gc_underflows_at_small_times :
    GcCounter.gc ⟨100, 10, []⟩ 50 = none ∧ GcSet.gc (V := Nat) ⟨100, 10, []⟩ 50 = none := by
  constructor <;> rfl

/-! ## Operation sequences over GcCounter -/

/-- A call in a client session against a `GcCounter`. -/
inductive GcOp where
  | incAt : Nat → GcOp
  | decOne : GcOp
  | gcAt : Nat → GcOp
deriving DecidableEq

/-- Instrumentation of a session: number of increments, number of decrements
that found a non-zero bucket, and total mass removed by gc calls. -/
structure GcTrace where
  incs : Nat
  decsHonored : Nat
  removed : Nat
deriving DecidableEq

/-- Run a session against a `GcCounter`, accumulating the trace.  A gc call
whose unchecked subtraction underflows aborts the session (`none`), matching
the panic in the source. -/
def runGcOps : GcCounter → GcTrace → List GcOp → Option (GcCounter × GcTrace)
  | c, tr, [] => some (c, tr)
  | c, tr, GcOp.incAt t :: ops =>
    runGcOps (c.increment t) { tr with incs := tr.incs + 1 } ops
  | c, tr, GcOp.decOne :: ops =>
    runGcOps c.decrement
      { tr with decsHonored := tr.decsHonored + (if 0 < c.get_count then 1 else 0) } ops
  | c, tr, GcOp.gcAt t :: ops =>
    match c.gc t with
    | none => none
    | some c2 => runGcOps c2 { tr with removed := tr.removed + c.gcRemoved t } ops

theorem sumCounts_append (a b : List (Nat × Nat)) :
    sumCounts (a ++ b) = sumCounts a + sumCounts b := by
  simp [sumCounts]

theorem sumCounts_incSlot (slot : Nat) (l : List (Nat × Nat)) :
    sumCounts (incSlot slot l) = sumCounts l + 1 := by
  induction l with
  | nil => simp [incSlot, sumCounts]
  | cons p rest ih =>
    obtain ⟨k, v⟩ := p
    by_cases h1 : slot < k
    · simp [incSlot, h1, sumCounts]
      omega
    · by_cases h2 : slot = k
      · simp [incSlot, h1, h2, sumCounts]
        omega
      · simp only [incSlot, if_neg h1, if_neg h2]
        have : sumCounts ((k, v) :: incSlot slot rest)
            = v + sumCounts (incSlot slot rest) := by
          simp [sumCounts]
        rw [this, ih]
        simp [sumCounts]
        omega

theorem sumCounts_decLifetimes (l : List (Nat × Nat)) :
    sumCounts (decLifetimes l) + (if 0 < sumCounts l then 1 else 0) = sumCounts l := by
  induction l with
  | nil => simp [decLifetimes, sumCounts]
  | cons p rest ih =>
    obtain ⟨k, v⟩ := p
    by_cases h1 : 0 < v
    · simp [decLifetimes, h1, sumCounts]
      omega
    · have hv : v = 0 := by omega
      subst hv
      simp only [decLifetimes, if_neg h1]
      have h2 : sumCounts ((k, 0) :: decLifetimes rest) = sumCounts (decLifetimes rest) := by
        simp [sumCounts]
      have h3 : sumCounts ((k, 0) :: rest) = sumCounts rest := by
        simp [sumCounts]
      rw [h2, h3]
      exact ih

theorem get_count_increment (c : GcCounter) (t : Nat) :
    (c.increment t).get_count = c.get_count + 1 := by
  simp [GcCounter.increment, GcCounter.get_count, sumCounts_incSlot]

theorem get_count_decrement (c : GcCounter) :
    c.decrement.get_count + (if 0 < c.get_count then 1 else 0) = c.get_count := by
  simp only [GcCounter.decrement, GcCounter.get_count]
  exact sumCounts_decLifetimes c.value_lifetimes

theorem get_count_gc (c : GcCounter) (t : Nat) (c2 : GcCounter)
    (h : c.gc t = some c2) : c2.get_count + c.gcRemoved t = c.get_count := by
  simp only [GcCounter.gc, GcCounter.gcRemoved] at h ⊢
  revert h
  cases hsub : checkedSub (t / c.gc_slot_duration_ms)
      (c.value_ttl_ms / c.gc_slot_duration_ms) with
  | none => intro h; cases h
  | some cutoff =>
    intro h
    have hc2 : c2 = { c with
        value_lifetimes := c.value_lifetimes.dropWhile (fun p => decide (p.1 ≤ cutoff)) } := by
      cases h; rfl
    subst hc2
    simp only [GcCounter.get_count]
    have hsplit := List.takeWhile_append_dropWhile
      (p := fun p : Nat × Nat => decide (p.1 ≤ cutoff)) (l := c.value_lifetimes)
    calc sumCounts (c.value_lifetimes.dropWhile fun p => decide (p.1 ≤ cutoff)) +
          sumCounts (c.value_lifetimes.takeWhile fun p => decide (p.1 ≤ cutoff))
        = sumCounts ((c.value_lifetimes.takeWhile fun p => decide (p.1 ≤ cutoff)) ++
            (c.value_lifetimes.dropWhile fun p => decide (p.1 ≤ cutoff))) := by
          rw [sumCounts_append]; omega
      _ = sumCounts c.value_lifetimes := by rw [hsplit]

theorem runGcOps_conservation (ops : List GcOp) :
    ∀ c tr c2 tr2, runGcOps c tr ops = some (c2, tr2) →
      c2.get_count + tr2.decsHonored + tr2.removed + tr.incs =
        tr2.incs + tr.decsHonored + tr.removed + c.get_count := by
  induction ops with
  | nil =>
    intro c tr c2 tr2 h
    simp [runGcOps] at h
    obtain ⟨h1, h2⟩ := h
    subst h1; subst h2
    omega
  | cons op ops ih =>
    intro c tr c2 tr2 h
    cases op with
    | incAt t =>
      have := ih (c.increment t) { tr with incs := tr.incs + 1 } c2 tr2 h
      have hinc := get_count_increment c t
      simp only at this
      omega
    | decOne =>
      have := ih c.decrement
        { tr with decsHonored := tr.decsHonored + (if 0 < c.get_count then 1 else 0) } c2 tr2 h
      have hdec := get_count_decrement c
      simp only at this
      omega
    | gcAt t =>
      simp only [runGcOps] at h
      revert h
      cases hgc : c.gc t with
      | none => intro h; cases h
      | some cg =>
        intro h
        have := ih cg { tr with removed := tr.removed + c.gcRemoved t } c2 tr2 h
        have hrem := get_count_gc c t cg hgc
        simp only at this
        omega

/-- C4 (amended) --- For every GcCounter and every finite sequence of
increment(t_i), decrement(), and gc(now) calls that completes without the
gc underflow of C3, get_count() equals the number of increments, minus the
number of decrements that found a non-zero bucket, minus the total number of
increment units removed by the gc calls, where each gc(now) removes exactly
the buckets whose slot is at most now/gc_slot_duration_ms −
value_ttl_ms/gc_slot_duration_ms (the code removes buckets ≤ the cutoff, not
strictly below it, and units removed by any earlier gc stay removed).
Stated additively over Nat: final count + honored decrements + removed units
= increments + initial count. -/
theorem gc_counter_count_conservation (c0 : GcCounter) (ops : List GcOp)
    (c : GcCounter) (tr : GcTrace)
    (h : runGcOps c0 ⟨0, 0, 0⟩ ops = some (c, tr)) :
    c.get_count + tr.decsHonored + tr.removed = tr.incs + c0.get_count := by
  have h2 := runGcOps_conservation ops c0 ⟨0, 0, 0⟩ c tr h
  simp only at h2
  omega

/-- Witness for the conservation law: the test scenario of counted.rs
(ttl 100, slot 10): inc(0) ×3, dec(), inc(10), gc(100) ends with count 1,
4 increments, 1 honored decrement, 2 units removed. -/
theorem gc_counter_count_conservation_witness :
    runGcOps ⟨100, 10, []⟩ ⟨0, 0, 0⟩
        [GcOp.incAt 0, GcOp.incAt 0, GcOp.incAt 0, GcOp.decOne, GcOp.incAt 10, GcOp.gcAt 100]
      = some (⟨100, 10, [(1, 1)]⟩, ⟨4, 1, 2⟩) ∧
    (⟨100, 10, [(1, 1)]⟩ : GcCounter).get_count + 1 + 2
      = 4 + (⟨100, 10, []⟩ : GcCounter).get_count :=
  ⟨by decide,
   gc_counter_count_conservation ⟨100, 10, []⟩
     [GcOp.incAt 0, GcOp.incAt 0, GcOp.incAt 0, GcOp.decOne, GcOp.incAt 10, GcOp.gcAt 100]
     ⟨100, 10, [(1, 1)]⟩ ⟨4, 1, 2⟩ (by decide)⟩

/-- C4 counterexample --- the claim as stated subtracts only the surviving
increments whose slot is STRICTLY below now/slot − ttl/slot at the most
recent gc.  With ttl 100 and slot duration 10, after inc(100) and gc(200)
the single increment sits in slot 10 and the cutoff is 200/10 − 100/10 = 10:
the claim's strict comparison excludes it (10 < 10 is false), predicting
get_count = 1 − 0 − 0 = 1, but the code removes buckets ≤ the cutoff and
get_count is 0. -/
theorem gc_counter_strict_cutoff_counterexample :
    runGcOps ⟨100, 10, []⟩ ⟨0, 0, 0⟩ [GcOp.incAt 100, GcOp.gcAt 200]
      = some (⟨100, 10, []⟩, ⟨1, 0, 1⟩) ∧
    (⟨100, 10, []⟩ : GcCounter).get_count = 0 ∧
    ¬ (100 / 10 < 200 / 10 - 100 / 10) := by
  refine ⟨by decide, by decide, by decide⟩

/-! ## Operation sequences over GcSet -/

/-- A call in a client session against a `GcSet`. -/
inductive SetOp (V : Type) where
  | ins : V → Nat → SetOp V
  | rm : V → SetOp V
  | gcAt : Nat → SetOp V
deriving DecidableEq

/-- Run a session against a `GcSet`; a gc whose unchecked subtraction
underflows aborts the session (`none`), matching the panic in the source. -/
def runSetOps {V : Type} [DecidableEq V] : GcSet V → List (SetOp V) → Option (GcSet V)
  | s, [] => some s
  | s, SetOp.ins v t :: ops => runSetOps (s.insert v t) ops
  | s, SetOp.rm v :: ops => runSetOps (s.remove_value v) ops
  | s, SetOp.gcAt t :: ops =>
    match s.gc t with
    | none => none
    | some s2 => runSetOps s2 ops

/-- Specification-level location of a value: the slot of its most recent
insert, `none` once removed or once some gc(now) since that insert had
slot ≤ now/slot_duration − ttl/slot_duration. -/
def specStep {V : Type} [DecidableEq V] (sd ttl : Nat) (f : V → Option Nat) :
    SetOp V → (V → Option Nat)
  | SetOp.ins w t => fun v => if v = w then some (t / sd) else f v
  | SetOp.rm w => fun v => if v = w then none else f v
  | SetOp.gcAt now => fun v =>
    match f v with
    | none => none
    | some slot => if slot ≤ now / sd - ttl / sd then none else some slot

/-- Specification-level location after a whole session, starting empty. -/
def specLoc {V : Type} [DecidableEq V] (sd ttl : Nat) (ops : List (SetOp V)) :
    V → Option Nat :=
  ops.foldl (specStep sd ttl) (fun _ => none)

/-- `v` lies in the bucket of `slot`. -/
def memAt {V : Type} (lst : List (Nat × List V)) (v : V) (slot : Nat) : Prop :=
  ∃ bl, (slot, bl) ∈ lst ∧ v ∈ bl

/-- The coupling invariant between a `GcSet` state and the
specification-level location function. -/
structure SetInv {V : Type} [DecidableEq V] (s : GcSet V) (f : V → Option Nat) : Prop where
  sorted : s.value_lifetimes.Pairwise (fun a b => a.1 < b.1)
  bucketsNodup : ∀ p ∈ s.value_lifetimes, p.2.Nodup
  mem_iff : ∀ v slot, memAt s.value_lifetimes v slot ↔ f v = some slot

theorem removeFirstBucket_keys {V : Type} [DecidableEq V] (v : V)
    (l : List (Nat × List V)) :
    (removeFirstBucket v l).map Prod.fst = l.map Prod.fst := by
  induction l with
  | nil => rfl
  | cons p rest ih =>
    obtain ⟨k, bl⟩ := p
    by_cases hv : v ∈ bl
    · simp [removeFirstBucket, hv]
    · simp [removeFirstBucket, hv, ih]

theorem removeFirstBucket_nodup {V : Type} [DecidableEq V] (v : V)
    (l : List (Nat × List V)) (h : ∀ p ∈ l, p.2.Nodup) :
    ∀ p ∈ removeFirstBucket v l, p.2.Nodup := by
  induction l with
  | nil => simp [removeFirstBucket]
  | cons q rest ih =>
    obtain ⟨k, bl⟩ := q
    by_cases hv : v ∈ bl
    · simp only [removeFirstBucket, if_pos hv]
      intro p hp
      rcases List.mem_cons.mp hp with h1 | h2
      · subst h1
        exact (h (k, bl) (by simp)).erase v
      · exact h p (List.mem_cons_of_mem _ h2)
    · simp only [removeFirstBucket, if_neg hv]
      intro p hp
      rcases List.mem_cons.mp hp with h1 | h2
      · subst h1; exact h (k, bl) (by simp)
      · exact ih (fun q hq => h q (List.mem_cons_of_mem _ hq)) p h2

theorem removeFirstBucket_mem_other {V : Type} [DecidableEq V] (v w : V) (hw : w ≠ v)
    (l : List (Nat × List V)) (slot : Nat) :
    memAt (removeFirstBucket v l) w slot ↔ memAt l w slot := by
  induction l with
  | nil => simp [removeFirstBucket]
  | cons q rest ih =>
    obtain ⟨k, bl⟩ := q
    by_cases hv : v ∈ bl
    · simp only [removeFirstBucket, if_pos hv]
      constructor
      · rintro ⟨bl2, hmem, hwmem⟩
        rcases List.mem_cons.mp hmem with h1 | h2
        · rw [Prod.mk.injEq] at h1
          obtain ⟨hk, hbl⟩ := h1
          subst hk
          exact ⟨bl, List.mem_cons_self _ _, (List.mem_erase_of_ne hw).mp (hbl ▸ hwmem)⟩
        · exact ⟨bl2, List.mem_cons_of_mem _ h2, hwmem⟩
      · rintro ⟨bl2, hmem, hwmem⟩
        rcases List.mem_cons.mp hmem with h1 | h2
        · rw [Prod.mk.injEq] at h1
          obtain ⟨hk, hbl⟩ := h1
          subst hk
          exact ⟨bl.erase v, List.mem_cons_self _ _,
            (List.mem_erase_of_ne hw).mpr (hbl ▸ hwmem)⟩
        · exact ⟨bl2, List.mem_cons_of_mem _ h2, hwmem⟩
    · simp only [removeFirstBucket, if_neg hv]
      constructor
      · rintro ⟨bl2, hmem, hwmem⟩
        rcases List.mem_cons.mp hmem with h1 | h2
        · exact ⟨bl2, by rw [h1]; exact List.mem_cons_self _ _, hwmem⟩
        · obtain ⟨bl3, hm3, hw3⟩ := (ih).mp ⟨bl2, h2, hwmem⟩
          exact ⟨bl3, List.mem_cons_of_mem _ hm3, hw3⟩
      · rintro ⟨bl2, hmem, hwmem⟩
        rcases List.mem_cons.mp hmem with h1 | h2
        · exact ⟨bl2, by rw [h1]; exact List.mem_cons_self _ _, hwmem⟩
        · obtain ⟨bl3, hm3, hw3⟩ := (ih).mpr ⟨bl2, h2, hwmem⟩
          exact ⟨bl3, List.mem_cons_of_mem _ hm3, hw3⟩

theorem removeFirstBucket_not_mem {V : Type} [DecidableEq V] (v : V)
    (l : List (Nat × List V))
    (hkeys : (l.map Prod.fst).Nodup)
    (hnodup : ∀ p ∈ l, p.2.Nodup)
    (huniq : ∀ s1 bl1 s2 bl2, (s1, bl1) ∈ l → (s2, bl2) ∈ l → v ∈ bl1 → v ∈ bl2 → s1 = s2) :
    ∀ slot, ¬ memAt (removeFirstBucket v l) v slot := by
  induction l with
  | nil => simp [removeFirstBucket, memAt]
  | cons q rest ih =>
    obtain ⟨k, bl⟩ := q
    by_cases hv : v ∈ bl
    · simp only [removeFirstBucket, if_pos hv]
      rintro slot ⟨bl2, hmem, hvmem⟩
      rcases List.mem_cons.mp hmem with h1 | h2
      · rw [Prod.mk.injEq] at h1
        obtain ⟨hk, hbl⟩ := h1
        exact (hnodup (k, bl) (by simp)).not_mem_erase (hbl ▸ hvmem)
      · have hslot : slot = k :=
          huniq slot bl2 k bl (List.mem_cons_of_mem _ h2) (by simp) hvmem hv
        subst hslot
        have : slot ∈ rest.map Prod.fst := List.mem_map.mpr ⟨(slot, bl2), h2, rfl⟩
        simp only [List.map_cons, List.nodup_cons] at hkeys
        exact hkeys.1 this
    · simp only [removeFirstBucket, if_neg hv]
      rintro slot ⟨bl2, hmem, hvmem⟩
      rcases List.mem_cons.mp hmem with h1 | h2
      · rw [Prod.mk.injEq] at h1
        obtain ⟨hk, hbl⟩ := h1
        exact hv (hbl ▸ hvmem)
      · refine ih ?_ ?_ ?_ slot ⟨bl2, h2, hvmem⟩
        · simp only [List.map_cons, List.nodup_cons] at hkeys
          exact hkeys.2
        · exact fun q hq => hnodup q (List.mem_cons_of_mem _ hq)
        · exact fun s1 b1 s2 b2 hm1 hm2 hv1 hv2 =>
            huniq s1 b1 s2 b2 (List.mem_cons_of_mem _ hm1) (List.mem_cons_of_mem _ hm2) hv1 hv2

theorem memAt_reverse {V : Type} (l : List (Nat × List V)) (v : V) (slot : Nat) :
    memAt l.reverse v slot ↔ memAt l v slot := by
  simp [memAt, List.mem_reverse]

theorem sorted_of_keys_eq {V : Type} {l1 l2 : List (Nat × List V)}
    (hk : l1.map Prod.fst = l2.map Prod.fst)
    (h : l2.Pairwise (fun a b => a.1 < b.1)) : l1.Pairwise (fun a b => a.1 < b.1) := by
  have h2 : (l2.map Prod.fst).Pairwise (· < ·) := List.pairwise_map.mpr h
  rw [← hk] at h2
  exact List.pairwise_map.mp h2

theorem keys_nodup_of_sorted {V : Type} {l : List (Nat × List V)}
    (h : l.Pairwise (fun a b => a.1 < b.1)) : (l.map Prod.fst).Nodup := by
  exact (List.pairwise_map.mpr h).imp Nat.ne_of_lt

theorem remove_value_keys {V : Type} [DecidableEq V] (s : GcSet V) (v : V) :
    (s.remove_value v).value_lifetimes.map Prod.fst = s.value_lifetimes.map Prod.fst := by
  simp [GcSet.remove_value, List.map_reverse, removeFirstBucket_keys]

theorem remove_value_sorted {V : Type} [DecidableEq V] (s : GcSet V) (v : V)
    (h : s.value_lifetimes.Pairwise (fun a b => a.1 < b.1)) :
    (s.remove_value v).value_lifetimes.Pairwise (fun a b => a.1 < b.1) :=
  sorted_of_keys_eq (remove_value_keys s v) h

theorem remove_value_bucketsNodup {V : Type} [DecidableEq V] (s : GcSet V) (v : V)
    (h : ∀ p ∈ s.value_lifetimes, p.2.Nodup) :
    ∀ p ∈ (s.remove_value v).value_lifetimes, p.2.Nodup := by
  intro p hp
  simp only [GcSet.remove_value, List.mem_reverse] at hp
  exact removeFirstBucket_nodup v _ (fun q hq => h q (List.mem_reverse.mp hq)) p hp

theorem remove_value_memAt_other {V : Type} [DecidableEq V] (s : GcSet V) (v w : V)
    (hw : w ≠ v) (slot : Nat) :
    memAt (s.remove_value v).value_lifetimes w slot ↔ memAt s.value_lifetimes w slot := by
  unfold GcSet.remove_value
  rw [memAt_reverse, removeFirstBucket_mem_other v w hw, memAt_reverse]

theorem remove_value_not_memAt {V : Type} [DecidableEq V] {s : GcSet V} {f : V → Option Nat}
    (hinv : SetInv s f) (v : V) :
    ∀ slot, ¬ memAt (s.remove_value v).value_lifetimes v slot := by
  intro slot h
  unfold GcSet.remove_value at h
  rw [memAt_reverse] at h
  refine removeFirstBucket_not_mem v s.value_lifetimes.reverse ?_ ?_ ?_ slot h
  · rw [List.map_reverse, List.nodup_reverse]
    exact keys_nodup_of_sorted hinv.sorted
  · exact fun q hq => hinv.bucketsNodup q (List.mem_reverse.mp hq)
  · intro s1 bl1 s2 bl2 hm1 hm2 hv1 hv2
    have h1 : f v = some s1 := (hinv.mem_iff v s1).mp ⟨bl1, List.mem_reverse.mp hm1, hv1⟩
    have h2 : f v = some s2 := (hinv.mem_iff v s2).mp ⟨bl2, List.mem_reverse.mp hm2, hv2⟩
    rw [h1] at h2
    exact (Option.some.injEq _ _ ▸ h2)

theorem bucketInsert_mem_self {V : Type} [DecidableEq V] (v : V) (l : List V) :
    v ∈ bucketInsert v l := by
  unfold bucketInsert
  by_cases h : v ∈ l
  · simp [h]
  · simp [h]

theorem bucketInsert_mem_other {V : Type} [DecidableEq V] (v w : V) (hw : w ≠ v)
    (l : List V) : w ∈ bucketInsert v l ↔ w ∈ l := by
  unfold bucketInsert
  by_cases h : v ∈ l
  · simp [h]
  · simp [h, List.mem_cons, hw]

theorem bucketInsert_nodup {V : Type} [DecidableEq V] (v : V) (l : List V)
    (h : l.Nodup) : (bucketInsert v l).Nodup := by
  unfold bucketInsert
  by_cases hv : v ∈ l
  · simpa [hv]
  · simp [hv, List.nodup_cons, h]

theorem insertIntoSlot_mem_keys {V : Type} [DecidableEq V] (slot : Nat) (v : V)
    (l : List (Nat × List V)) :
    ∀ p ∈ insertIntoSlot slot v l, p.1 = slot ∨ p.1 ∈ l.map Prod.fst := by
  induction l with
  | nil => simp [insertIntoSlot]
  | cons q rest ih =>
    obtain ⟨k, bl⟩ := q
    by_cases h1 : slot < k
    · simp only [insertIntoSlot, if_pos h1]
      intro p hp
      rcases List.mem_cons.mp hp with h | h
      · left; rw [h]
      · right; exact List.mem_map.mpr ⟨p, h, rfl⟩
    · by_cases h2 : slot = k
      · simp only [insertIntoSlot, if_neg h1, if_pos h2]
        intro p hp
        rcases List.mem_cons.mp hp with h | h
        · left; rw [h, h2]
        · right; exact List.mem_map.mpr ⟨p, List.mem_cons_of_mem _ h, rfl⟩
      · simp only [insertIntoSlot, if_neg h1, if_neg h2]
        intro p hp
        rcases List.mem_cons.mp hp with h | h
        · right; rw [h]; simp
        · rcases ih p h with h3 | h3
          · left; exact h3
          · right; simp only [List.map_cons, List.mem_cons]; right; exact h3

theorem insertIntoSlot_sorted {V : Type} [DecidableEq V] (slot : Nat) (v : V)
    (l : List (Nat × List V)) (h : l.Pairwise (fun a b => a.1 < b.1)) :
    (insertIntoSlot slot v l).Pairwise (fun a b => a.1 < b.1) := by
  induction l with
  | nil => simp [insertIntoSlot]
  | cons q rest ih =>
    obtain ⟨k, bl⟩ := q
    rw [List.pairwise_cons] at h
    obtain ⟨hhead, htail⟩ := h
    by_cases h1 : slot < k
    · simp only [insertIntoSlot, if_pos h1]
      rw [List.pairwise_cons]
      constructor
      · intro p hp
        rcases List.mem_cons.mp hp with h | h
        · rw [h]; exact h1
        · exact Nat.lt_trans h1 (hhead p h)
      · rw [List.pairwise_cons]
        exact ⟨hhead, htail⟩
    · by_cases h2 : slot = k
      · simp only [insertIntoSlot, if_neg h1, if_pos h2]
        rw [List.pairwise_cons]
        exact ⟨hhead, htail⟩
      · simp only [insertIntoSlot, if_neg h1, if_neg h2]
        rw [List.pairwise_cons]
        constructor
        · intro p hp
          rcases insertIntoSlot_mem_keys slot v rest p hp with h3 | h3
          · rw [h3]; omega
          · obtain ⟨q2, hq2, hq2e⟩ := List.mem_map.mp h3
            have := hhead q2 hq2
            omega
        · exact ih htail

theorem insertIntoSlot_bucketsNodup {V : Type} [DecidableEq V] (slot : Nat) (v : V)
    (l : List (Nat × List V)) (h : ∀ p ∈ l, p.2.Nodup) :
    ∀ p ∈ insertIntoSlot slot v l, p.2.Nodup := by
  induction l with
  | nil =>
    intro p hp
    simp only [insertIntoSlot, List.mem_singleton] at hp
    rw [hp]
    simp
  | cons q rest ih =>
    obtain ⟨k, bl⟩ := q
    by_cases h1 : slot < k
    · simp only [insertIntoSlot, if_pos h1]
      intro p hp
      rcases List.mem_cons.mp hp with h3 | h3
      · rw [h3]; simp
      · exact h p h3
    · by_cases h2 : slot = k
      · simp only [insertIntoSlot, if_neg h1, if_pos h2]
        intro p hp
        rcases List.mem_cons.mp hp with h3 | h3
        · rw [h3]
          exact bucketInsert_nodup v bl (h (k, bl) (by simp))
        · exact h p (List.mem_cons_of_mem _ h3)
      · simp only [insertIntoSlot, if_neg h1, if_neg h2]
        intro p hp
        rcases List.mem_cons.mp hp with h3 | h3
        · rw [h3]; exact h (k, bl) (by simp)
        · exact ih (fun q hq => h q (List.mem_cons_of_mem _ hq)) p h3

theorem insertIntoSlot_memAt_other {V : Type} [DecidableEq V] (slot : Nat) (v w : V)
    (hw : w ≠ v) (l : List (Nat × List V)) (s : Nat) :
    memAt (insertIntoSlot slot v l) w s ↔ memAt l w s := by
  induction l with
  | nil =>
    simp only [insertIntoSlot, memAt, List.mem_singleton, List.not_mem_nil]
    constructor
    · rintro ⟨bl, hbl, hwm⟩
      rw [Prod.mk.injEq] at hbl
      rw [hbl.2] at hwm
      simp only [List.mem_singleton] at hwm
      exact absurd hwm hw
    · rintro ⟨bl, hbl, _⟩
      exact absurd hbl (by simp)
  | cons q rest ih =>
    obtain ⟨k, bl⟩ := q
    by_cases h1 : slot < k
    · simp only [insertIntoSlot, if_pos h1]
      constructor
      · rintro ⟨bl2, hm, hwm⟩
        rcases List.mem_cons.mp hm with h3 | h3
        · rw [Prod.mk.injEq] at h3
          rw [h3.2] at hwm
          simp only [List.mem_singleton] at hwm
          exact absurd hwm hw
        · exact ⟨bl2, h3, hwm⟩
      · rintro ⟨bl2, hm, hwm⟩
        exact ⟨bl2, List.mem_cons_of_mem _ hm, hwm⟩
    · by_cases h2 : slot = k
      · simp only [insertIntoSlot, if_neg h1, if_pos h2]
        constructor
        · rintro ⟨bl2, hm, hwm⟩
          rcases List.mem_cons.mp hm with h3 | h3
          · rw [Prod.mk.injEq] at h3
            rw [h3.2] at hwm
            rw [bucketInsert_mem_other v w hw] at hwm
            exact ⟨bl, by rw [h3.1]; exact List.mem_cons_self _ _, hwm⟩
          · exact ⟨bl2, List.mem_cons_of_mem _ h3, hwm⟩
        · rintro ⟨bl2, hm, hwm⟩
          rcases List.mem_cons.mp hm with h3 | h3
          · rw [Prod.mk.injEq] at h3
            refine ⟨bucketInsert v bl, by rw [h3.1]; exact List.mem_cons_self _ _, ?_⟩
            rw [bucketInsert_mem_other v w hw]
            rw [← h3.2]; exact hwm
          · exact ⟨bl2, List.mem_cons_of_mem _ h3, hwm⟩
      · simp only [insertIntoSlot, if_neg h1, if_neg h2]
        constructor
        · rintro ⟨bl2, hm, hwm⟩
          rcases List.mem_cons.mp hm with h3 | h3
          · exact ⟨bl2, by rw [h3]; exact List.mem_cons_self _ _, hwm⟩
          · obtain ⟨bl3, hm3, hw3⟩ := (ih).mp ⟨bl2, h3, hwm⟩
            exact ⟨bl3, List.mem_cons_of_mem _ hm3, hw3⟩
        · rintro ⟨bl2, hm, hwm⟩
          rcases List.mem_cons.mp hm with h3 | h3
          · exact ⟨bl2, by rw [h3]; exact List.mem_cons_self _ _, hwm⟩
          · obtain ⟨bl3, hm3, hw3⟩ := (ih).mpr ⟨bl2, h3, hwm⟩
            exact ⟨bl3, List.mem_cons_of_mem _ hm3, hw3⟩

theorem insertIntoSlot_memAt_self {V : Type} [DecidableEq V] (slot : Nat) (v : V)
    (l : List (Nat × List V)) (hv : ∀ s, ¬ memAt l v s) (s : Nat) :
    memAt (insertIntoSlot slot v l) v s ↔ s = slot := by
  induction l with
  | nil =>
    simp only [insertIntoSlot, memAt, List.mem_singleton]
    constructor
    · rintro ⟨bl, hbl, hvm⟩
      rw [Prod.mk.injEq] at hbl
      exact hbl.1
    · intro h
      exact ⟨[v], by rw [h], List.mem_singleton.mpr rfl⟩
  | cons q rest ih =>
    obtain ⟨k, bl⟩ := q
    have hvtail : ∀ s, ¬ memAt rest v s := by
      intro s2 ⟨bl2, hm, hvm⟩
      exact hv s2 ⟨bl2, List.mem_cons_of_mem _ hm, hvm⟩
    have hvhead : v ∉ bl := by
      intro hvm
      exact hv k ⟨bl, List.mem_cons_self _ _, hvm⟩
    by_cases h1 : slot < k
    · simp only [insertIntoSlot, if_pos h1]
      constructor
      · rintro ⟨bl2, hm, hvm⟩
        rcases List.mem_cons.mp hm with h3 | h3
        · rw [Prod.mk.injEq] at h3
          exact h3.1
        · rcases List.mem_cons.mp h3 with h4 | h4
          · rw [Prod.mk.injEq] at h4
            exact absurd (h4.2 ▸ hvm) hvhead
          · exact absurd ⟨bl2, h4, hvm⟩ (hvtail s)
      · intro h
        exact ⟨[v], by rw [h]; exact List.mem_cons_self _ _, List.mem_singleton.mpr rfl⟩
    · by_cases h2 : slot = k
      · simp only [insertIntoSlot, if_neg h1, if_pos h2]
        constructor
        · rintro ⟨bl2, hm, hvm⟩
          rcases List.mem_cons.mp hm with h3 | h3
          · rw [Prod.mk.injEq] at h3
            rw [h3.1, h2]
          · exact absurd ⟨bl2, h3, hvm⟩ (hvtail s)
        · intro h
          refine ⟨bucketInsert v bl, ?_, bucketInsert_mem_self v bl⟩
          rw [h, h2]
          exact List.mem_cons_self _ _
      · simp only [insertIntoSlot, if_neg h1, if_neg h2]
        constructor
        · rintro ⟨bl2, hm, hvm⟩
          rcases List.mem_cons.mp hm with h3 | h3
          · rw [Prod.mk.injEq] at h3
            exact absurd (h3.2 ▸ hvm) hvhead
          · exact (ih hvtail).mp ⟨bl2, h3, hvm⟩
        · intro h
          obtain ⟨bl2, hm, hvm⟩ := (ih hvtail).mpr h
          exact ⟨bl2, List.mem_cons_of_mem _ hm, hvm⟩

theorem dropWhile_memAt {V : Type} (cut : Nat) (l : List (Nat × List V))
    (h : l.Pairwise (fun a b => a.1 < b.1)) (w : V) (s : Nat) :
    memAt (l.dropWhile (fun p => decide (p.1 ≤ cut))) w s ↔ memAt l w s ∧ cut < s := by
  induction l with
  | nil => simp [memAt]
  | cons q rest ih =>
    obtain ⟨k, bl⟩ := q
    rw [List.pairwise_cons] at h
    obtain ⟨hhead, htail⟩ := h
    by_cases h1 : k ≤ cut
    · rw [List.dropWhile_cons_of_pos (by simpa using h1)]
      rw [ih htail]
      constructor
      · rintro ⟨⟨bl2, hm, hwm⟩, hc⟩
        exact ⟨⟨bl2, List.mem_cons_of_mem _ hm, hwm⟩, hc⟩
      · rintro ⟨⟨bl2, hm, hwm⟩, hc⟩
        rcases List.mem_cons.mp hm with h3 | h3
        · rw [Prod.mk.injEq] at h3
          omega
        · exact ⟨⟨bl2, h3, hwm⟩, hc⟩
    · rw [List.dropWhile_cons_of_neg (by simpa using h1)]
      constructor
      · rintro ⟨bl2, hm, hwm⟩
        refine ⟨⟨bl2, hm, hwm⟩, ?_⟩
        rcases List.mem_cons.mp hm with h3 | h3
        · rw [Prod.mk.injEq] at h3
          omega
        · have := hhead (s, bl2) h3
          simp only at this
          omega
      · rintro ⟨⟨bl2, hm, hwm⟩, _⟩
        exact ⟨bl2, hm, hwm⟩

theorem insert_value_lifetimes {V : Type} [DecidableEq V] (s : GcSet V) (v : V) (t : Nat) :
    (s.insert v t).value_lifetimes =
      insertIntoSlot (t / s.gc_slot_duration_ms) v (s.remove_value v).value_lifetimes := rfl

theorem gcSet_gc_fields {V : Type} (s : GcSet V) (t : Nat) (s2 : GcSet V)
    (h : s.gc t = some s2) :
    s2.gc_slot_duration_ms = s.gc_slot_duration_ms ∧ s2.value_ttl_ms = s.value_ttl_ms := by
  simp only [GcSet.gc] at h
  cases hsub : checkedSub (t / s.gc_slot_duration_ms)
      (s.value_ttl_ms / s.gc_slot_duration_ms) with
  | none => rw [hsub] at h; cases h
  | some cutoff =>
    rw [hsub] at h
    rw [Option.some.injEq] at h
    subst h
    exact ⟨rfl, rfl⟩

theorem SetInv.stepRm {V : Type} [DecidableEq V] {s : GcSet V} {f : V → Option Nat}
    (hinv : SetInv s f) (v : V) :
    SetInv (s.remove_value v)
      (specStep s.gc_slot_duration_ms s.value_ttl_ms f (SetOp.rm v)) := by
  refine ⟨remove_value_sorted s v hinv.sorted,
          remove_value_bucketsNodup s v hinv.bucketsNodup, ?_⟩
  intro w slot
  show memAt (s.remove_value v).value_lifetimes w slot ↔
    (if w = v then none else f w) = some slot
  by_cases hw : w = v
  · subst hw
    simp only [if_pos rfl]
    constructor
    · intro h
      exact absurd h (remove_value_not_memAt hinv w slot)
    · intro h; cases h
  · rw [if_neg hw, remove_value_memAt_other s v w hw slot]
    exact hinv.mem_iff w slot

theorem SetInv.stepIns {V : Type} [DecidableEq V] {s : GcSet V} {f : V → Option Nat}
    (hinv : SetInv s f) (v : V) (t : Nat) :
    SetInv (s.insert v t)
      (specStep s.gc_slot_duration_ms s.value_ttl_ms f (SetOp.ins v t)) := by
  refine ⟨?_, ?_, ?_⟩
  · rw [insert_value_lifetimes]
    exact insertIntoSlot_sorted _ _ _ (remove_value_sorted s v hinv.sorted)
  · rw [insert_value_lifetimes]
    exact insertIntoSlot_bucketsNodup _ _ _ (remove_value_bucketsNodup s v hinv.bucketsNodup)
  · intro w slot
    show memAt (s.insert v t).value_lifetimes w slot ↔
      (if w = v then some (t / s.gc_slot_duration_ms) else f w) = some slot
    rw [insert_value_lifetimes]
    by_cases hw : w = v
    · subst hw
      rw [if_pos rfl,
        insertIntoSlot_memAt_self _ _ _ (remove_value_not_memAt hinv w) slot]
      simp [eq_comm]
    · rw [if_neg hw, insertIntoSlot_memAt_other _ _ _ hw,
        remove_value_memAt_other s v w hw slot]
      exact hinv.mem_iff w slot

theorem SetInv.stepGc {V : Type} [DecidableEq V] {s : GcSet V} {f : V → Option Nat}
    (hinv : SetInv s f) (t : Nat) (s2 : GcSet V) (hgc : s.gc t = some s2) :
    SetInv s2 (specStep s.gc_slot_duration_ms s.value_ttl_ms f (SetOp.gcAt t)) := by
  simp only [GcSet.gc] at hgc
  cases hsub : checkedSub (t / s.gc_slot_duration_ms)
      (s.value_ttl_ms / s.gc_slot_duration_ms) with
  | none => rw [hsub] at hgc; cases hgc
  | some cutoff =>
    rw [hsub] at hgc
    rw [Option.some.injEq] at hgc
    have hcut : cutoff = t / s.gc_slot_duration_ms - s.value_ttl_ms / s.gc_slot_duration_ms := by
      unfold checkedSub at hsub
      by_cases hle : s.value_ttl_ms / s.gc_slot_duration_ms ≤ t / s.gc_slot_duration_ms
      · rw [if_pos hle] at hsub
        exact ((Option.some.injEq _ _).mp hsub).symm
      · rw [if_neg hle] at hsub
        cases hsub
    subst hgc
    refine ⟨?_, ?_, ?_⟩
    · exact List.Pairwise.sublist (List.dropWhile_sublist _) hinv.sorted
    · intro p hp
      exact hinv.bucketsNodup p ((List.dropWhile_sublist _).subset hp)
    · intro w slot
      show memAt (s.value_lifetimes.dropWhile (fun p => decide (p.1 ≤ cutoff))) w slot ↔
        (match f w with
          | none => none
          | some sl =>
            if sl ≤ t / s.gc_slot_duration_ms - s.value_ttl_ms / s.gc_slot_duration_ms
            then none else some sl) = some slot
      rw [← hcut]
      rw [dropWhile_memAt cutoff s.value_lifetimes hinv.sorted w slot, hinv.mem_iff w slot]
      cases hf : f w with
      | none => simp
      | some sl =>
        by_cases hle : sl ≤ cutoff
        · simp only [if_pos hle]
          constructor
          · rintro ⟨heq, hc⟩
            rw [Option.some.injEq] at heq
            omega
          · intro h; cases h
        · simp only [if_neg hle, Option.some.injEq]
          constructor
          · rintro ⟨heq, _⟩
            exact heq
          · intro h
            subst h
            exact ⟨rfl, by omega⟩

theorem setInv_new (V : Type) [DecidableEq V] (ttl sd : Nat) :
    SetInv (GcSet.new V ttl sd) (fun _ => none) := by
  refine ⟨by simp [GcSet.new], by simp [GcSet.new], ?_⟩
  intro v slot
  simp [GcSet.new, memAt]

theorem runSetOps_inv {V : Type} [DecidableEq V] (sd ttl : Nat) (ops : List (SetOp V)) :
    ∀ (s : GcSet V) (f : V → Option Nat) (s2 : GcSet V),
      s.gc_slot_duration_ms = sd → s.value_ttl_ms = ttl → SetInv s f →
      runSetOps s ops = some s2 →
      SetInv s2 (ops.foldl (specStep sd ttl) f) ∧
        s2.gc_slot_duration_ms = sd ∧ s2.value_ttl_ms = ttl := by
  induction ops with
  | nil =>
    intro s f s2 hsd httl hinv h
    simp only [runSetOps, Option.some.injEq] at h
    subst h
    exact ⟨hinv, hsd, httl⟩
  | cons op ops ih =>
    intro s f s2 hsd httl hinv h
    cases op with
    | ins v t =>
      simp only [runSetOps] at h
      have hstep := hinv.stepIns v t
      rw [hsd, httl] at hstep
      have := ih (s.insert v t) _ s2 hsd httl hstep h
      simpa using this
    | rm v =>
      simp only [runSetOps] at h
      have hstep := hinv.stepRm v
      rw [hsd, httl] at hstep
      have := ih (s.remove_value v) _ s2 hsd httl hstep h
      simpa using this
    | gcAt t =>
      simp only [runSetOps] at h
      revert h
      cases hgc : s.gc t with
      | none => intro h; cases h
      | some sg =>
        intro h
        have hstep := hinv.stepGc t sg hgc
        rw [hsd, httl] at hstep
        have hf := gcSet_gc_fields s t sg hgc
        have := ih sg _ s2 (by rw [hf.1, hsd]) (by rw [hf.2, httl]) hstep h
        simpa using this

theorem contains_iff_memAt {V : Type} [DecidableEq V] (s : GcSet V) (v : V) :
    s.contains v = true ↔ ∃ slot, memAt s.value_lifetimes v slot := by
  simp only [GcSet.contains, List.any_eq_true, decide_eq_true_eq, memAt]
  constructor
  · rintro ⟨⟨k, bl⟩, hm, hv⟩
    exact ⟨k, bl, hm, hv⟩
  · rintro ⟨k, bl, hm, hv⟩
    exact ⟨⟨k, bl⟩, hm, hv⟩

/-- C5 (amended) --- For every GcSet and every sequence of insert and gc
operations (remove_value allowed as well) executed from new() without the gc
underflow of C3, contains(v) returns true if and only if v has a surviving
specification-level slot: the most recent insert(v, t) put it in slot
t / gc_slot_duration_ms, every gc(now) since then kept it exactly when that
slot is strictly greater than now / gc_slot_duration_ms −
value_ttl_ms / gc_slot_duration_ms (slot-granular comparison, not the
millisecond comparison t ≥ now − value_ttl_ms), and contains(v) is true
whenever an insert(v, t) has happened with no gc afterwards. -/
theorem gc_set_contains_iff {V : Type} [DecidableEq V] (ttl sd : Nat)
    (ops : List (SetOp V)) (s2 : GcSet V)
    (h : runSetOps (GcSet.new V ttl sd) ops = some s2) (v : V) :
    s2.contains v = true ↔ (specLoc sd ttl ops v).isSome = true := by
  have hinv := (runSetOps_inv sd ttl ops (GcSet.new V ttl sd) (fun _ => none) s2
    rfl rfl (setInv_new V ttl sd) h).1
  rw [contains_iff_memAt]
  unfold specLoc
  constructor
  · rintro ⟨slot, hm⟩
    rw [(hinv.mem_iff v slot).mp hm]
    rfl
  · intro hsome
    cases hloc : (ops.foldl (specStep sd ttl) (fun _ => none)) v with
    | none => rw [hloc] at hsome; cases hsome
    | some slot => exact ⟨slot, (hinv.mem_iff v slot).mpr hloc⟩

/-- Witness: the test scenario of set.rs (ttl 100, slot 10):
insert(1, 0), insert(1, 100) slides the value to slot 10, and gc(100)
(cutoff 0) keeps it: contains(1) is true and the specification-level slot
survives. -/
theorem gc_set_contains_iff_witness :
    runSetOps (GcSet.new Nat 100 10) [SetOp.ins 1 0, SetOp.ins 1 100, SetOp.gcAt 100]
      = some ⟨100, 10, [(10, [1])]⟩ ∧
    ((⟨100, 10, [(10, [1])]⟩ : GcSet Nat).contains 1 = true ↔
      (specLoc 10 100 [SetOp.ins 1 0, SetOp.ins 1 100, SetOp.gcAt 100] 1).isSome = true) :=
  ⟨by decide,
   gc_set_contains_iff 100 10 [SetOp.ins 1 0, SetOp.ins 1 100, SetOp.gcAt 100] _ (by decide) 1⟩

/-- C5 counterexample --- the claim as stated uses the millisecond condition
t ≥ now − value_ttl_ms.  With ttl 100 and slot duration 10, insert(v, 100)
lands in slot 10 and gc(200) computes cutoff 200/10 − 100/10 = 10 and drops
slot 10, so contains(v) is false even though t = 100 ≥ 200 − 100 = 100
satisfies the claim's condition. -/
theorem gc_set_ms_granularity_counterexample :
    runSetOps (GcSet.new Nat 100 10) [SetOp.ins 1 100, SetOp.gcAt 200]
      = some ⟨100, 10, []⟩ ∧
    (⟨100, 10, []⟩ : GcSet Nat).contains 1 = false ∧ 200 - 100 ≤ 100 := by
  refine ⟨by decide, by decide, by decide⟩

/-- Number of copies of `v` across all buckets of an association list. -/
def occList {V : Type} [DecidableEq V] (v : V) (l : List (Nat × List V)) : Nat :=
  (l.map (fun p => p.2.count v)).sum

/-- Number of copies of `v` across all buckets of a `GcSet`. -/
def occValue {V : Type} [DecidableEq V] (v : V) (s : GcSet V) : Nat :=
  occList v s.value_lifetimes

theorem occList_eq_zero {V : Type} [DecidableEq V] {v : V} {l : List (Nat × List V)}
    (h : ∀ p ∈ l, v ∉ p.2) : occList v l = 0 := by
  induction l with
  | nil => rfl
  | cons q rest ih =>
    simp only [occList, List.map_cons, List.sum_cons]
    rw [List.count_eq_zero.mpr (h q (List.mem_cons_self _ _))]
    have := ih (fun p hp => h p (List.mem_cons_of_mem _ hp))
    simpa [occList] using this

theorem occList_reverse {V : Type} [DecidableEq V] (v : V) (l : List (Nat × List V)) :
    occList v l.reverse = occList v l := by
  simp [occList, List.map_reverse, List.sum_reverse]

theorem occList_le_one {V : Type} [DecidableEq V] (v : V) (l : List (Nat × List V))
    (hkeys : (l.map Prod.fst).Nodup)
    (hnodup : ∀ p ∈ l, p.2.Nodup)
    (huniq : ∀ s1 bl1 s2 bl2, (s1, bl1) ∈ l → (s2, bl2) ∈ l → v ∈ bl1 → v ∈ bl2 → s1 = s2) :
    occList v l ≤ 1 := by
  induction l with
  | nil => simp [occList]
  | cons q rest ih =>
    obtain ⟨k, bl⟩ := q
    simp only [occList, List.map_cons, List.sum_cons]
    by_cases hv : v ∈ bl
    · have hcount : bl.count v ≤ 1 :=
        List.nodup_iff_count_le_one.mp (hnodup (k, bl) (by simp)) v
      have hrest : occList v rest = 0 := by
        apply occList_eq_zero
        rintro ⟨s2, bl2⟩ hm hv2
        have : s2 = k := huniq s2 bl2 k bl (List.mem_cons_of_mem _ hm) (by simp) hv2 hv
        subst this
        simp only [List.map_cons, List.nodup_cons] at hkeys
        exact hkeys.1 (List.mem_map.mpr ⟨(s2, bl2), hm, rfl⟩)
      simp only [occList] at hrest
      omega
    · rw [List.count_eq_zero.mpr hv]
      have := ih (by simp only [List.map_cons, List.nodup_cons] at hkeys; exact hkeys.2)
        (fun p hp => hnodup p (List.mem_cons_of_mem _ hp))
        (fun s1 b1 s2 b2 h1 h2 hv1 hv2 =>
          huniq s1 b1 s2 b2 (List.mem_cons_of_mem _ h1) (List.mem_cons_of_mem _ h2) hv1 hv2)
      simpa [occList] using this

theorem occList_removeFirstBucket {V : Type} [DecidableEq V] (v : V)
    (l : List (Nat × List V)) (hnodup : ∀ p ∈ l, p.2.Nodup) (hle : occList v l ≤ 1) :
    occList v (removeFirstBucket v l) = 0 := by
  induction l with
  | nil => rfl
  | cons q rest ih =>
    obtain ⟨k, bl⟩ := q
    by_cases hv : v ∈ bl
    · simp only [removeFirstBucket, if_pos hv, occList, List.map_cons, List.sum_cons]
      have hpos : 0 < bl.count v := List.count_pos_iff.mpr hv
      have herase : (bl.erase v).count v = bl.count v - 1 := List.count_erase_self v bl
      simp only [occList, List.map_cons, List.sum_cons] at hle
      have hrest : occList v rest = 0 := by
        simp only [occList]
        omega
      simp only [occList] at hrest
      omega
    · simp only [removeFirstBucket, if_neg hv, occList, List.map_cons, List.sum_cons]
      rw [List.count_eq_zero.mpr hv]
      simp only [occList, List.map_cons, List.sum_cons] at hle
      rw [List.count_eq_zero.mpr hv] at hle
      have := ih (fun p hp => hnodup p (List.mem_cons_of_mem _ hp)) (by simpa [occList] using hle)
      simpa [occList] using this

theorem occValue_remove_value {V : Type} [DecidableEq V] (s : GcSet V) (v : V)
    (hnodup : ∀ p ∈ s.value_lifetimes, p.2.Nodup) (hle : occValue v s ≤ 1) :
    occValue v (s.remove_value v) = 0 := by
  unfold occValue GcSet.remove_value
  simp only
  rw [occList_reverse]
  apply occList_removeFirstBucket
  · intro q hq
    exact hnodup q (List.mem_reverse.mp hq)
  · rw [occList_reverse]
    exact hle

theorem SetInv.occ_le_one {V : Type} [DecidableEq V] {s : GcSet V} {f : V → Option Nat}
    (hinv : SetInv s f) (v : V) : occValue v s ≤ 1 :=
  occList_le_one v _ (keys_nodup_of_sorted hinv.sorted) hinv.bucketsNodup
    (fun s1 bl1 s2 bl2 h1 h2 hv1 hv2 => by
      have e1 := (hinv.mem_iff v s1).mp ⟨bl1, h1, hv1⟩
      have e2 := (hinv.mem_iff v s2).mp ⟨bl2, h2, hv2⟩
      rw [e1] at e2
      exact (Option.some.injEq _ _).mp e2)

/-- C10 --- For every GcSet starting from new() and every sequence of
insert(v, t), remove_value(v), and gc(now) operations (completing without
the gc underflow of C3), each value is present in at most one slot's bucket
at any time; insert(v, t) first deletes the single prior occurrence of v
(scanning newest slot first) before inserting v into slot
t / gc_slot_duration_ms, so remove_value's stop-at-first-match deletion
removes every copy of v: after remove_value(v) no copy of v remains. -/
theorem gc_set_value_in_one_bucket {V : Type} [DecidableEq V] (ttl sd : Nat)
    (ops : List (SetOp V)) (s2 : GcSet V)
    (h : runSetOps (GcSet.new V ttl sd) ops = some s2) (v : V) :
    occValue v s2 ≤ 1 ∧ occValue v (s2.remove_value v) = 0 := by
  have hinv := (runSetOps_inv sd ttl ops (GcSet.new V ttl sd) (fun _ => none) s2
    rfl rfl (setInv_new V ttl sd) h).1
  exact ⟨hinv.occ_le_one v,
    occValue_remove_value s2 v hinv.bucketsNodup (hinv.occ_le_one v)⟩

/-- Witness: after insert(1,0), insert(2,0), insert(1,100) the value 1 sits
only in slot 10 (its slot-0 copy was deleted by the sliding insert), and
remove_value(1) deletes every copy. -/
theorem gc_set_value_in_one_bucket_witness :
    runSetOps (GcSet.new Nat 100 10) [SetOp.ins 1 0, SetOp.ins 2 0, SetOp.ins 1 100]
      = some ⟨100, 10, [(0, [2]), (10, [1])]⟩ ∧
    (occValue 1 (⟨100, 10, [(0, [2]), (10, [1])]⟩ : GcSet Nat) ≤ 1 ∧
     occValue 1 ((⟨100, 10, [(0, [2]), (10, [1])]⟩ : GcSet Nat).remove_value 1) = 0) :=
  ⟨by decide,
   gc_set_value_in_one_bucket 100 10 [SetOp.ins 1 0, SetOp.ins 2 0, SetOp.ins 1 100]
     _ (by decide) 1⟩

/-! ## Blocks, blobs, WrappedBlock (sequencer.rs, mod block) -/

/-- A user transaction payload, opaque to the sequencer (spec §3: equality
is defined by its bytes); modelled as one word of content. -/
abbrev Tx := Nat

/-- `movement_types::block::Block` as the spec §3 describes it: id, parent
id, timestamp, ordered transactions (the movement-types crate is not under
src/). -/
structure Block where
  id : Nat
  parent_id : Nat
  timestamp : Nat
  transactions : List Tx
deriving DecidableEq

/-- Split a list into exactly `k` contiguous, order-preserving chunks (each
step takes the ceiling share of what remains). -/
def chunkList {α : Type} : Nat → List α → List (List α)
  | 0, _ => []
  | 1, l => [l]
  | k + 2, l =>
    l.take ((l.length + k + 1) / (k + 2)) ::
      chunkList (k + 1) (l.drop ((l.length + k + 1) / (k + 2)))

/-- Modelled from the spec: `movement_types::block::Block::split` is not
under src/.  Spec §3: splitting a block by factor k yields k blocks, each a
disjoint, order-preserving partition of its transactions, every sub-block a
valid Block with a fresh id; an indivisible block (fewer transactions than
k, or k = 0) fails.  Fresh ids are modelled as distinct successors of the
parent id. -/
def Block.split (b : Block) (factor : Nat) : Option (List Block) :=
  if factor = 0 ∨ b.transactions.length < factor then none
  else
    some ((chunkList factor b.transactions).enum.map
      (fun p => ⟨b.id + p.1 + 1, b.parent_id, b.timestamp, p.2⟩))

/-- Modelled from the spec: `bcs::to_bytes` (crate not under src/) is the
project's canonical, injective binary serialization (spec §6); modelled as a
flat length-prefixed word encoding. -/
def bcsEncode (b : Block) : List Nat :=
  b.id :: b.parent_id :: b.timestamp :: b.transactions.length :: b.transactions

/-- Modelled from the spec: `zstd::encode_all` at level 0 (crate not under
src/) is an invertible compression (spec §6: the compressed form is
`zstd(encoded)`); modelled as an injective encoding with explicit inverse. -/
def zstdCompress (l : List Nat) : List Nat := l.length :: l

/-- Modelled from the spec: zstd decompression, the left inverse of
`zstdCompress`. -/
def zstdDecompress (l : List Nat) : List Nat := l.tail

/-- `celestia_types::Blob`, restricted to the fields the sequencer uses:
the namespace tag and the payload bytes. -/
structure Blob where
  namespace_id : Nat
  data : List Nat
deriving DecidableEq

/-- `WrappedBlock` (sequencer.rs lines 425-429). -/
structure WrappedBlock where
  block : Block
  blob : Blob
deriving DecidableEq

/-- `WrappedBlock::try_new` (sequencer.rs lines 432-443): serialize,
compress, wrap into a namespaced blob (`Blob::new` is modelled as total on
the model namespace). -/
def WrappedBlock.try_new (block : Block) (namespace_id : Nat) : Option WrappedBlock :=
  let block_bytes := bcsEncode block
  let compressed_block_bytes := zstdCompress block_bytes
  some ⟨block, ⟨namespace_id, compressed_block_bytes⟩⟩

/-- `impl Splitable for WrappedBlock`, `split` (sequencer.rs lines 446-456):
splits the inner block and pairs every sub-block with a CLONE of the parent
blob (`blob: self.blob.clone()`); nothing is recompressed. -/
def WrappedBlock.split (wb : WrappedBlock) (factor : Nat) : Option (List WrappedBlock) :=
  (wb.block.split factor).map (fun blocks => blocks.map (fun b => ⟨b, wb.blob⟩))

/-- `impl BinpackingWeighted for WrappedBlock`, `weight` (sequencer.rs lines
458-462): the blob byte length. -/
def WrappedBlock.weight (wb : WrappedBlock) : Nat := wb.blob.data.length

/-- C2 (amended) --- try_new establishes the invariant
blob.data = zstd_compress(bcs_encode(block)), so decompressing the cached
blob of a try_new value yields exactly the encoding of its paired block;
split(k), however, copies the parent's blob unchanged into every sub-block,
so for split values the cached blob still decompresses to the PARENT's
encoding, not the sub-block's own. -/
theorem wrapped_block_blob_invariant :
    (∀ (b : Block) (ns : Nat) (wb : WrappedBlock),
      WrappedBlock.try_new b ns = some wb →
      wb.block = b ∧ zstdDecompress wb.blob.data = bcsEncode wb.block) ∧
    (∀ (wb : WrappedBlock) (k : Nat) (subs : List WrappedBlock),
      wb.split k = some subs → ∀ sb ∈ subs, sb.blob = wb.blob) := by
  constructor
  · intro b ns wb h
    simp only [WrappedBlock.try_new, Option.some.injEq] at h
    subst h
    exact ⟨rfl, rfl⟩
  · intro wb k subs h
    rw [WrappedBlock.split, Option.map_eq_some'] at h
    obtain ⟨blocks, hblocks, hsubs⟩ := h
    subst hsubs
    intro sb hsb
    obtain ⟨b, _, hb⟩ := List.mem_map.mp hsb
    rw [← hb]

/-- Witness for the amended invariant, at the block {id 1, parent 0,
time 0, transactions [5, 6]} with namespace 0:
try_new gives blob data [6, 1, 0, 0, 2, 5, 6] whose tail is the encoding,
and both halves of split(2) keep that same parent blob. -/
theorem wrapped_block_blob_invariant_witness :
    ((⟨⟨1, 0, 0, [5, 6]⟩, ⟨0, [6, 1, 0, 0, 2, 5, 6]⟩⟩ : WrappedBlock).block = ⟨1, 0, 0, [5, 6]⟩ ∧
      zstdDecompress (⟨⟨1, 0, 0, [5, 6]⟩, ⟨0, [6, 1, 0, 0, 2, 5, 6]⟩⟩ :
          WrappedBlock).blob.data
        = bcsEncode (⟨⟨1, 0, 0, [5, 6]⟩, ⟨0, [6, 1, 0, 0, 2, 5, 6]⟩⟩ : WrappedBlock).block) ∧
    (∀ sb ∈ [(⟨⟨2, 0, 0, [5]⟩, ⟨0, [6, 1, 0, 0, 2, 5, 6]⟩⟩ : WrappedBlock),
             ⟨⟨3, 0, 0, [6]⟩, ⟨0, [6, 1, 0, 0, 2, 5, 6]⟩⟩],
      sb.blob = (⟨⟨1, 0, 0, [5, 6]⟩, ⟨0, [6, 1, 0, 0, 2, 5, 6]⟩⟩ : WrappedBlock).blob) :=
  ⟨wrapped_block_blob_invariant.1 ⟨1, 0, 0, [5, 6]⟩ 0 _ (by decide),
   wrapped_block_blob_invariant.2 ⟨⟨1, 0, 0, [5, 6]⟩, ⟨0, [6, 1, 0, 0, 2, 5, 6]⟩⟩ 2 _ (by decide)⟩

/-- C2 counterexample --- the claim as stated extends the invariant to
values reached through split(k), but split clones the parent blob: for the
try_new value of block {id 1, parent 0, time 0, transactions [5, 6]},
the first sub-block of split(2) carries block {id 2, ..., [5]} while its
blob still decompresses to the parent's encoding [1, 0, 0, 2, 5, 6]
≠ [2, 0, 0, 1, 5]. -/
theorem wrapped_block_split_stale_blob_counterexample :
    WrappedBlock.try_new ⟨1, 0, 0, [5, 6]⟩ 0
      = some ⟨⟨1, 0, 0, [5, 6]⟩, ⟨0, [6, 1, 0, 0, 2, 5, 6]⟩⟩ ∧
    (⟨⟨1, 0, 0, [5, 6]⟩, ⟨0, [6, 1, 0, 0, 2, 5, 6]⟩⟩ : WrappedBlock).split 2
      = some [⟨⟨2, 0, 0, [5]⟩, ⟨0, [6, 1, 0, 0, 2, 5, 6]⟩⟩,
              ⟨⟨3, 0, 0, [6]⟩, ⟨0, [6, 1, 0, 0, 2, 5, 6]⟩⟩] ∧
    zstdDecompress (⟨⟨2, 0, 0, [5]⟩, ⟨0, [6, 1, 0, 0, 2, 5, 6]⟩⟩ : WrappedBlock).blob.data
      ≠ bcsEncode (⟨⟨2, 0, 0, [5]⟩, ⟨0, [6, 1, 0, 0, 2, 5, 6]⟩⟩ : WrappedBlock).block := by
  refine ⟨by decide, by decide, by decide⟩

/-! ## Grouping heuristic (movement_algs::grouping_heuristic, modelled from
the spec: the crate is not under src/; only sequencer.rs uses it) -/

/-- Modelled from the spec §3: a `GroupingOutcome` item is labeled
Apply(T), Success, or Failure(T). -/
inductive OutcomeItem (T : Type) where
  | apply : T → OutcomeItem T
  | success : OutcomeItem T
  | failure : T → OutcomeItem T
deriving DecidableEq

/-- A distribution: a flat sequence of labeled items. -/
abbrev GroupingOutcome (T : Type) := List (OutcomeItem T)

/-- Modelled from the spec: `into_original` recovers the underlying items
(the payloads of Apply and Failure labels). -/
def intoOriginal {T : Type} (g : GroupingOutcome T) : List T :=
  g.filterMap (fun it => match it with
    | OutcomeItem.apply x => some x
    | OutcomeItem.success => none
    | OutcomeItem.failure x => some x)

/-- Modelled from the spec: `GroupingOutcome::new_all_success(n)`. -/
def newAllSuccess {T : Type} (n : Nat) : GroupingOutcome T :=
  List.replicate n OutcomeItem.success

/-- Modelled from the spec: `GroupingOutcome::new_apply(items)`. -/
def newApply {T : Type} (l : List T) : GroupingOutcome T :=
  l.map OutcomeItem.apply

/-- Modelled from the spec: `to_failures_prefer_instrumental` relabels a
grouping as failures (used to short-circuit the rest of a batch after a
hard failure) without dropping any payload. -/
def toFailures {T : Type} (g : GroupingOutcome T) : GroupingOutcome T :=
  g.map (fun it => match it with
    | OutcomeItem.apply x => OutcomeItem.failure x
    | OutcomeItem.success => OutcomeItem.success
    | OutcomeItem.failure x => OutcomeItem.failure x)

/-- Modelled from the spec §4.2: `DropSuccess` removes items labeled
Success; others pass through unchanged. -/
def dropSuccessH {T : Type} (g : GroupingOutcome T) : GroupingOutcome T :=
  g.filter (fun it => match it with
    | OutcomeItem.success => false
    | _ => true)

/-- Modelled from the spec §4.2: `ToApply` relabels every Failure(x) back to
Apply(x); Apply and Success pass through. -/
def toApplyH {T : Type} (g : GroupingOutcome T) : GroupingOutcome T :=
  g.map (fun it => match it with
    | OutcomeItem.failure x => OutcomeItem.apply x
    | other => other)

/-- Modelled from the spec §4.2: `Splitting(k)` replaces each splittable
Apply(x) with the k Applys of x.split(k); an indivisible x becomes
Failure(x); Success and Failure pass through. -/
def splittingH (k : Nat) (g : GroupingOutcome WrappedBlock) : GroupingOutcome WrappedBlock :=
  g.flatMap (fun it => match it with
    | OutcomeItem.apply x =>
      match x.split k with
      | some subs => subs.map OutcomeItem.apply
      | none => [OutcomeItem.failure x]
    | OutcomeItem.success => [OutcomeItem.success]
    | OutcomeItem.failure x => [OutcomeItem.failure x])

/-- Stable insertion into a weight-descending list (keeps earlier items
first among equal weights). -/
def insertByWeightDesc (x : WrappedBlock) : List WrappedBlock → List WrappedBlock
  | [] => [x]
  | y :: rest =>
    if y.weight < x.weight then x :: y :: rest else y :: insertByWeightDesc x rest

/-- The "decreasing" phase of first-fit-decreasing: stable sort by
descending weight. -/
def sortByWeightDesc (l : List WrappedBlock) : List WrappedBlock :=
  l.foldl (fun acc x => insertByWeightDesc x acc) []

/-- Total weight of one bin-packing group. -/
def groupWeight (g : List WrappedBlock) : Nat :=
  (g.map WrappedBlock.weight).sum

/-- First-fit placement: into the first group with room, else a new group. -/
def firstFitInsert (cap : Nat) (x : WrappedBlock) :
    List (List WrappedBlock) → List (List WrappedBlock)
  | [] => [[x]]
  | g :: gs =>
    if groupWeight g + x.weight ≤ cap then (g ++ [x]) :: gs
    else g :: firstFitInsert cap x gs

/-- Modelled from the spec §4.2: `FirstFitBinpacking(capacity)` partitions
the Apply items into groups of total weight ≤ capacity by
first-fit-decreasing, each group becoming one Apply of the elevated
outcome; any single item with weight > capacity yields a Failure; incoming
Success passes through and an incoming Failure x elevates to Failure [x]. -/
def firstFitBinpacking (cap : Nat) (g : GroupingOutcome WrappedBlock) :
    GroupingOutcome (List WrappedBlock) :=
  let applies := g.filterMap (fun it => match it with
    | OutcomeItem.apply x => some x
    | _ => none)
  let sorted := sortByWeightDesc applies
  let oversize := sorted.filter (fun x => decide (cap < x.weight))
  let fitting := sorted.filter (fun x => ! decide (cap < x.weight))
  let groups := fitting.foldl (fun gs x => firstFitInsert cap x gs) []
  groups.map OutcomeItem.apply ++ oversize.map (fun x => OutcomeItem.failure [x]) ++
    g.filterMap (fun it => match it with
      | OutcomeItem.apply _ => none
      | OutcomeItem.success => some OutcomeItem.success
      | OutcomeItem.failure x => some (OutcomeItem.failure [x]))

/-- The retry (second) invocation of the stack built by
`submit_with_heuristic` (sequencer.rs lines 131-137): [DropSuccess, ToApply,
SkipFor(1, Splitting(2)), FirstFitBinpacking(1_700_000)] applied
left-to-right; on the second invocation the SkipFor(1) guard has expired, so
Splitting(2) runs. -/
def runStackRetry (cap : Nat) (d : GroupingOutcome WrappedBlock) :
    GroupingOutcome (List WrappedBlock) :=
  firstFitBinpacking cap (splittingH 2 (toApplyH (dropSuccessH d)))

theorem chunkList_two {α : Type} (l : List α) :
    chunkList 2 l = [l.take ((l.length + 1) / 2), l.drop ((l.length + 1) / 2)] := rfl

/-- C1 --- claim: for a single WrappedBlock whose blob weight exceeds
1_700_000, one retry pass of [DropSuccess, ToApply, SkipFor(1,
Splitting(2)), FirstFitBinpacking(1_700_000)] produces exactly 2 sub-blocks,
each of weight() at most 1_700_000, each with half of the transactions in
original order.  What the code actually does: Splitting(2) does produce
exactly 2 sub-blocks whose concatenated transactions are the original ones
in order, but WrappedBlock::split clones the parent blob into both, so each
sub-block's weight() still equals the parent's oversize weight and
FirstFitBinpacking(1_700_000) emits both as Failures instead of ≤-capacity
groups. -/
theorem splitting_retry_keeps_parent_weight (wb : WrappedBlock)
    (hw : 1700000 < wb.weight) (hn : 2 ≤ wb.block.transactions.length) :
    ∃ b1 b2 : Block,
      wb.block.split 2 = some [b1, b2] ∧
      b1.transactions ++ b2.transactions = wb.block.transactions ∧
      runStackRetry 1700000 [OutcomeItem.apply wb] =
        [OutcomeItem.failure [⟨b1, wb.blob⟩], OutcomeItem.failure [⟨b2, wb.blob⟩]] ∧
      WrappedBlock.weight ⟨b1, wb.blob⟩ = wb.weight ∧
      WrappedBlock.weight ⟨b2, wb.blob⟩ = wb.weight := by
  have hw2 : 1700000 < wb.blob.data.length := hw
  refine ⟨⟨wb.block.id + 1, wb.block.parent_id, wb.block.timestamp,
            wb.block.transactions.take ((wb.block.transactions.length + 1) / 2)⟩,
          ⟨wb.block.id + 2, wb.block.parent_id, wb.block.timestamp,
            wb.block.transactions.drop ((wb.block.transactions.length + 1) / 2)⟩,
          ?_, ?_, ?_, rfl, rfl⟩
  case _ =>
    unfold Block.split
    rw [if_neg (by omega)]
    rfl
  case _ =>
    exact List.take_append_drop _ _
  case _ =>
    have hsplit : wb.block.split 2 = some
        [⟨wb.block.id + 1, wb.block.parent_id, wb.block.timestamp,
           wb.block.transactions.take ((wb.block.transactions.length + 1) / 2)⟩,
         ⟨wb.block.id + 2, wb.block.parent_id, wb.block.timestamp,
           wb.block.transactions.drop ((wb.block.transactions.length + 1) / 2)⟩] := by
      unfold Block.split
      rw [if_neg (by omega)]
      rfl
    have hwsplit : wb.split 2 = some
        [⟨⟨wb.block.id + 1, wb.block.parent_id, wb.block.timestamp,
            wb.block.transactions.take ((wb.block.transactions.length + 1) / 2)⟩, wb.blob⟩,
         ⟨⟨wb.block.id + 2, wb.block.parent_id, wb.block.timestamp,
            wb.block.transactions.drop ((wb.block.transactions.length + 1) / 2)⟩, wb.blob⟩] := by
      unfold WrappedBlock.split
      rw [hsplit]
      rfl
    unfold runStackRetry
    have hstage : splittingH 2 (toApplyH (dropSuccessH [OutcomeItem.apply wb])) =
        [OutcomeItem.apply ⟨⟨wb.block.id + 1, wb.block.parent_id, wb.block.timestamp,
            wb.block.transactions.take ((wb.block.transactions.length + 1) / 2)⟩, wb.blob⟩,
         OutcomeItem.apply ⟨⟨wb.block.id + 2, wb.block.parent_id, wb.block.timestamp,
            wb.block.transactions.drop ((wb.block.transactions.length + 1) / 2)⟩, wb.blob⟩] := by
      show splittingH 2 [OutcomeItem.apply wb] = _
      simp [splittingH, hwsplit]
    rw [hstage]
    simp [firstFitBinpacking, sortByWeightDesc, insertByWeightDesc, WrappedBlock.weight,
      firstFitInsert, groupWeight, hw2, lt_irrefl]

/-- Witness: a block of two transactions whose cached blob is 3,200,000
bytes (the spec's 3.2 MB scenario with capacity 1.7 MB). -/
theorem splitting_retry_keeps_parent_weight_witness :
    1700000 < (⟨⟨1, 0, 0, [0, 1]⟩, ⟨0, List.replicate 3200000 0⟩⟩ : WrappedBlock).weight ∧
    2 ≤ (⟨⟨1, 0, 0, [0, 1]⟩, ⟨0, List.replicate 3200000 0⟩⟩ :
        WrappedBlock).block.transactions.length ∧
    (∃ b1 b2 : Block,
      (⟨⟨1, 0, 0, [0, 1]⟩, ⟨0, List.replicate 3200000 0⟩⟩ : WrappedBlock).block.split 2
        = some [b1, b2] ∧
      b1.transactions ++ b2.transactions
        = (⟨⟨1, 0, 0, [0, 1]⟩, ⟨0, List.replicate 3200000 0⟩⟩ :
            WrappedBlock).block.transactions ∧
      runStackRetry 1700000
          [OutcomeItem.apply ⟨⟨1, 0, 0, [0, 1]⟩, ⟨0, List.replicate 3200000 0⟩⟩] =
        [OutcomeItem.failure [⟨b1, ⟨0, List.replicate 3200000 0⟩⟩],
         OutcomeItem.failure [⟨b2, ⟨0, List.replicate 3200000 0⟩⟩]] ∧
      WrappedBlock.weight ⟨b1, ⟨0, List.replicate 3200000 0⟩⟩
        = (⟨⟨1, 0, 0, [0, 1]⟩, ⟨0, List.replicate 3200000 0⟩⟩ : WrappedBlock).weight ∧
      WrappedBlock.weight ⟨b2, ⟨0, List.replicate 3200000 0⟩⟩
        = (⟨⟨1, 0, 0, [0, 1]⟩, ⟨0, List.replicate 3200000 0⟩⟩ : WrappedBlock).weight) := by
  have hw : 1700000 <
      (⟨⟨1, 0, 0, [0, 1]⟩, ⟨0, List.replicate 3200000 0⟩⟩ : WrappedBlock).weight := by
    show 1700000 < (List.replicate 3200000 (0 : Nat)).length
    rw [List.length_replicate]
    norm_num
  have hn : 2 ≤ (⟨⟨1, 0, 0, [0, 1]⟩, ⟨0, List.replicate 3200000 0⟩⟩ :
      WrappedBlock).block.transactions.length := by
    show 2 ≤ ([0, 1] : List Tx).length
    norm_num
  exact ⟨hw, hn, splitting_retry_keeps_parent_weight _ hw hn⟩

/-! ## The submission callback and sequential runner (sequencer.rs lines
140-166; the runner itself is modelled from the spec §4.2) -/

/-- The per-group callback of `submit_with_heuristic` (sequencer.rs lines
143-163), with the effect of `submit_blocks` abstracted by the predicate
`submitOk`.  On index 0 the sticky flag is cleared; if the flag is set the
grouping is relabeled to failures and nothing is submitted; otherwise the
group's blocks are submitted: on success every item becomes Success, on
failure the blocks are relabeled Apply and the flag is set.  The second
component records the blocks passed to `submit_blocks` (`none` when the
short-circuit skips the submission). -/
def submitCallback {T : Type} (submitOk : List T → Bool) (index : Nat)
    (grouping : GroupingOutcome T) (flag : Bool) :
    (GroupingOutcome T × Bool) × Option (List T) :=
  let flag := if index = 0 then false else flag
  if flag then ((toFailures grouping, flag), none)
  else
    let blocks := intoOriginal grouping
    if submitOk blocks then ((newAllSuccess blocks.length, flag), some blocks)
    else ((newApply blocks, true), some blocks)

/-- Modelled from the spec §4.2: `run_async_sequential_with_metadata`
invokes the callback once per top-level group, left to right, threading the
sticky flag; the per-group outcomes are collected in order, together with
the record of the groups actually submitted. -/
def runSequentialWithMetadata {T S : Type}
    (f : Nat → GroupingOutcome T → Bool → (GroupingOutcome T × Bool) × Option S) :
    Nat → Bool → List (GroupingOutcome T) → List (GroupingOutcome T) × List S
  | _, _, [] => ([], [])
  | i, flag, g :: gs =>
    let r := f i g flag
    let rest := runSequentialWithMetadata f (i + 1) r.1.2 gs
    (r.1.1 :: rest.1, r.2.toList ++ rest.2)

theorem intoOriginal_toFailures {T : Type} (g : GroupingOutcome T) :
    intoOriginal (toFailures g) = intoOriginal g := by
  induction g with
  | nil => rfl
  | cons it rest ih =>
    cases it <;> simp [toFailures, intoOriginal] at ih ⊢ <;> exact ih

theorem intoOriginal_newApply {T : Type} (l : List T) :
    intoOriginal (newApply l) = l := by
  induction l with
  | nil => rfl
  | cons x rest ih =>
    simp [newApply, intoOriginal] at ih ⊢
    exact ih

theorem runSeq_all_failures {T : Type} (submitOk : List T → Bool)
    (gs : List (GroupingOutcome T)) :
    ∀ i, 1 ≤ i →
      runSequentialWithMetadata (submitCallback submitOk) i true gs =
        (gs.map toFailures, []) := by
  induction gs with
  | nil => intro i hi; rfl
  | cons g rest ih =>
    intro i hi
    have hi0 : ¬ i = 0 := by omega
    have hcb : submitCallback submitOk i g true = ((toFailures g, true), none) := by
      simp [submitCallback, hi0]
    simp only [runSequentialWithMetadata, hcb, ih (i + 1) (by omega)]
    simp

theorem runSeq_sticky_general {T : Type} (submitOk : List T → Bool)
    (post : List (GroupingOutcome T)) (gj : GroupingOutcome T)
    (hfail : submitOk (intoOriginal gj) = false) :
    ∀ (pre : List (GroupingOutcome T)) (i : Nat),
      (∀ g ∈ pre, submitOk (intoOriginal g) = true) →
      runSequentialWithMetadata (submitCallback submitOk) i false (pre ++ gj :: post) =
        (pre.map (fun g => newAllSuccess (intoOriginal g).length)
          ++ newApply (intoOriginal gj) :: post.map toFailures,
         pre.map intoOriginal ++ [intoOriginal gj]) := by
  intro pre
  induction pre with
  | nil =>
    intro i _
    have hcb : submitCallback submitOk i gj false =
        ((newApply (intoOriginal gj), true), some (intoOriginal gj)) := by
      simp [submitCallback, hfail]
    simp only [List.nil_append, runSequentialWithMetadata, hcb,
      runSeq_all_failures submitOk post (i + 1) (by omega)]
    simp
  | cons g pre ih =>
    intro i hpre
    have hg : submitOk (intoOriginal g) = true := hpre g (List.mem_cons_self _ _)
    have hcb : submitCallback submitOk i g false =
        ((newAllSuccess (intoOriginal g).length, false), some (intoOriginal g)) := by
      simp [submitCallback, hg]
    rw [List.cons_append]
    simp only [runSequentialWithMetadata, hcb,
      ih (i + 1) (fun q hq => hpre q (List.mem_cons_of_mem _ hq))]
    simp

/-- C6 --- In one batch processed by submit_with_heuristic's per-group
callback, once the submission of some group fails, no later group of that
batch is submitted to the DA (the record of submitted groups stops at the
failed one), and neither the failed group's blocks nor any later group's
blocks are dropped: the failed group reappears as Apply of its blocks and
every later group as Failures that keep exactly its original blocks in
order, so the next iteration re-offers them. -/
theorem submit_sticky_preserves_blocks {T : Type} (submitOk : List T → Bool)
    (pre post : List (GroupingOutcome T)) (gj : GroupingOutcome T)
    (hpre : ∀ g ∈ pre, submitOk (intoOriginal g) = true)
    (hfail : submitOk (intoOriginal gj) = false) :
    runSequentialWithMetadata (submitCallback submitOk) 0 false (pre ++ gj :: post) =
      (pre.map (fun g => newAllSuccess (intoOriginal g).length)
        ++ newApply (intoOriginal gj) :: post.map toFailures,
       pre.map intoOriginal ++ [intoOriginal gj]) ∧
    intoOriginal (newApply (intoOriginal gj)) = intoOriginal gj ∧
    (∀ g ∈ post, intoOriginal (toFailures g) = intoOriginal g) :=
  ⟨runSeq_sticky_general submitOk post gj hfail pre 0 hpre,
   intoOriginal_newApply _,
   fun g _ => intoOriginal_toFailures g⟩

/-- Witness: three singleton groups, the second failing (the spec's
first-failure scenario 4): group 1 submits, group 2 returns as Apply,
group 3 as Failure, and only groups 1 and 2 were offered to the DA. -/
theorem submit_sticky_preserves_blocks_witness :
    runSequentialWithMetadata
        (submitCallback (fun blocks : List Nat => decide (2 ∉ blocks))) 0 false
        [[OutcomeItem.apply 1], [OutcomeItem.apply 2], [OutcomeItem.apply 3]] =
      ([[OutcomeItem.success], [OutcomeItem.apply 2], [OutcomeItem.failure 3]],
       [[1], [2]]) ∧
    intoOriginal (newApply (intoOriginal [OutcomeItem.apply 2])) =
      intoOriginal [OutcomeItem.apply 2] ∧
    (∀ g ∈ [[OutcomeItem.apply 3]], intoOriginal (toFailures g) = intoOriginal g) := by
  have h := submit_sticky_preserves_blocks (fun blocks : List Nat => decide (2 ∉ blocks))
    [[OutcomeItem.apply 1]] [[OutcomeItem.apply 3]] [OutcomeItem.apply 2]
    (by decide) (by decide)
  exact ⟨h.1, h.2.1, h.2.2⟩

/-! ## read_blocks (sequencer.rs lines 177-218) -/

/-- `LightNodeV1::read_blocks`: the accumulation loop, with channel arrivals
modelled as a schedule of (absolute elapsed ms, block) pairs in arrival
order; once the schedule is exhausted the next `recv` pends until the
timeout fires (channel closure behaves the same for this loop: it breaks).
The loop budget is `self.memseq.building_time_ms()` — the FULL configured
building time, despite the source variable being named `half_building_time`
— and each iteration breaks when `checked_sub` of the elapsed time
underflows, or receives when the next arrival lands before `remaining`
elapses. -/
def read_blocks (building_time_ms : Nat) : Nat → List (Nat × Nat) → List Nat
  | elapsed, events =>
    match checkedSub building_time_ms elapsed with
    | none => []
    | some remaining =>
      match events with
      | [] => []
      | (t, b) :: rest =>
        if t - elapsed < remaining then b :: read_blocks building_time_ms t rest
        else []

/-- C7 --- claim: read_blocks accumulates blocks for at most
building_time_ms / 2 milliseconds.  The code's budget is the FULL
building_time_ms (the variable `half_building_time` is assigned
`self.memseq.building_time_ms()` with no halving, though its name and the
break comment say half): with building time 1000, a block arriving at
700 ms — well past the claimed 500 ms cut-off — is still accumulated, and
only arrivals at ≥ 1000 ms are cut off. -/
theorem read_blocks_uses_full_building_time :
    read_blocks 1000 0 [(700, 42)] = [42] ∧
    read_blocks 1000 0 [(1000, 42)] = [] ∧
    1000 / 2 < 700 := by
  refine ⟨rfl, rfl, by decide⟩

/-! ## batch_write (sequencer.rs lines 299-311 and 370-409) -/

/-- The blob payload carried by a `BlobResponse`. -/
structure BlobData where
  data : List Nat
  blob_id : String
  height : Nat
  timestamp : Nat
deriving DecidableEq

/-- `BlobResponse` (m1_da_light_node_grpc): the tagged variants. -/
inductive BlobResponse where
  | passedThroughBlob : BlobData → BlobResponse
  | sequencedBlobIntent : BlobData → BlobResponse
  | sequencedBlobBlock : BlobData → BlobResponse
deriving DecidableEq

/-- `LightNodeV1::make_sequenced_blob_intent` (sequencer.rs lines 299-311);
the source wraps this in `Ok(...)` unconditionally. -/
def make_sequenced_blob_intent (data : List Nat) (height : Nat) : BlobResponse :=
  BlobResponse.sequencedBlobIntent ⟨data, "", height, 0⟩

/-- The decode loop of batch_write (sequencer.rs lines 394-399):
`serde_json::from_slice::<Transaction>` on every blob, failing on the first
undecodable one. -/
def decodeAll {τ : Type} (decode : List Nat → Option τ) : List (List Nat) → Option (List τ)
  | [] => some []
  | d :: rest =>
    match decode d with
    | none => none
    | some tx => (decodeAll decode rest).map (fun txs => tx :: txs)

/-- `LightNodeService::batch_write` for the sequencer (sequencer.rs lines
370-409), with the DA head height (`header_network_head`) passed in as
`height` and blob decoding abstracted as `decode`.  The first component is
the response (`none` models the error return); the second records the
argument of each `memseq.publish_many` call made — a single call carrying
all decoded transactions on success, no call at all when a blob fails to
decode. -/
def batch_write {τ : Type} (decode : List Nat → Option τ) (height : Nat)
    (blobs : List (List Nat)) : Option (List BlobResponse) × List (List τ) :=
  let intents := blobs.map (fun d => make_sequenced_blob_intent d height)
  match decodeAll decode blobs with
  | none => (none, [])
  | some transactions => (some intents, [transactions])

theorem decodeAll_some_of_all {τ : Type} (decode : List Nat → Option τ)
    (blobs : List (List Nat)) (h : ∀ d ∈ blobs, (decode d).isSome = true) :
    ∃ txs, decodeAll decode blobs = some txs ∧ blobs.map decode = txs.map some := by
  induction blobs with
  | nil => exact ⟨[], rfl, rfl⟩
  | cons d rest ih =>
    obtain ⟨txs, htxs, hmap⟩ := ih (fun q hq => h q (List.mem_cons_of_mem _ hq))
    have hd := h d (List.mem_cons_self _ _)
    cases hdec : decode d with
    | none => rw [hdec] at hd; cases hd
    | some tx =>
      refine ⟨tx :: txs, ?_, ?_⟩
      · simp [decodeAll, hdec, htxs]
      · simp [hdec, hmap]

theorem decodeAll_none_of_bad {τ : Type} (decode : List Nat → Option τ)
    (blobs : List (List Nat)) (h : ∃ d ∈ blobs, decode d = none) :
    decodeAll decode blobs = none := by
  induction blobs with
  | nil => obtain ⟨d, hd, _⟩ := h; cases hd
  | cons q rest ih =>
    obtain ⟨d, hd, hdec⟩ := h
    rcases List.mem_cons.mp hd with h1 | h1
    · subst h1
      simp [decodeAll, hdec]
    · cases hq : decode q with
      | none => simp [decodeAll, hq]
      | some tx => simp [decodeAll, hq, ih ⟨d, h1, hdec⟩]

/-- C8 --- For every batch_write request with blobs [b1, ..., bN]: when
every blob decodes, the response holds exactly N SequencedBlobIntent
entries, the i-th carrying bi's data and the DA head height queried at
acceptance time, and exactly one publish_many call is made carrying the N
decoded transactions in order (blobs.map decode = txs.map some); when some
blob fails to decode, batch_write returns an error and publish_many is
never called. -/
theorem batch_write_intents_and_atomic_publish {τ : Type}
    (decode : List Nat → Option τ) (height : Nat) (blobs : List (List Nat)) :
    ((∀ d ∈ blobs, (decode d).isSome = true) →
      ∃ txs, batch_write decode height blobs =
          (some (blobs.map (fun d => make_sequenced_blob_intent d height)), [txs]) ∧
        txs.length = blobs.length ∧ blobs.map decode = txs.map some) ∧
    ((∃ d ∈ blobs, decode d = none) →
      batch_write decode height blobs = (none, [])) := by
  constructor
  · intro h
    obtain ⟨txs, htxs, hmap⟩ := decodeAll_some_of_all decode blobs h
    refine ⟨txs, ?_, ?_, hmap⟩
    · simp [batch_write, htxs]
    · have := congrArg List.length hmap
      simpa using this.symm
  · intro h
    simp [batch_write, decodeAll_none_of_bad decode blobs h]

/-- Witness: with decode = List.head?, height 7 and blobs [[1], [2]] every
blob decodes and a single publish carries [1, 2]; with blobs [[], [2]] the
first blob fails to decode, batch_write errors and nothing is published. -/
theorem batch_write_intents_and_atomic_publish_witness :
    (∃ txs, batch_write (fun l : List Nat => l.head?) 7 [[1], [2]] =
        (some ([[1], [2]].map (fun d => make_sequenced_blob_intent d 7)), [txs]) ∧
      txs.length = [[1], [2]].length ∧
      [[1], [2]].map (fun l : List Nat => l.head?) = txs.map some) ∧
    batch_write (fun l : List Nat => l.head?) 7 [[], [2]] = (none, []) :=
  ⟨(batch_write_intents_and_atomic_publish (fun l : List Nat => l.head?) 7 [[1], [2]]).1
      (by decide),
   (batch_write_intents_and_atomic_publish (fun l : List Nat => l.head?) 7 [[], [2]]).2
      ⟨[], by simp, rfl⟩⟩

/-! ## read_commitment_events (partial.rs lines 213-234) -/

/-- `BlockCommitment` (movement_types; spec §3). -/
structure BlockCommitment where
  height : Nat
  block_id : Nat
  state_root : Nat
deriving DecidableEq

/-- `BlockCommitmentEvent` (movement_types; spec §3). -/
inductive BlockCommitmentEvent where
  | accepted : BlockCommitment → BlockCommitmentEvent
  | rejected : Nat → String → BlockCommitmentEvent
deriving DecidableEq

/-- `read_commitment_events` (partial.rs lines 213-234): drain the
commitment-event stream (`none` models a stream item carrying an error,
which `res?` propagates, ending the loop); `Accepted(c)` calls
`executor.set_finalized_block_height(c.height)` (modelled as succeeding,
per the executor contract); `Rejected { height, reason }` is only logged.
Returns the heights passed to set_finalized_block_height, in call order. -/
def read_commitment_events : List (Option BlockCommitmentEvent) → List Nat
  | [] => []
  | none :: _ => []
  | some (BlockCommitmentEvent.accepted c) :: rest =>
    c.height :: read_commitment_events rest
  | some (BlockCommitmentEvent.rejected _ _) :: rest =>
    read_commitment_events rest

/-- The prefix of stream items processed before the first error. -/
def okPrefix {α : Type} (l : List (Option α)) : List α :=
  (l.takeWhile Option.isSome).filterMap id

/-- The heights of the Accepted events of a list. -/
def acceptedHeights (evs : List BlockCommitmentEvent) : List Nat :=
  evs.filterMap (fun e => match e with
    | BlockCommitmentEvent.accepted c => some c.height
    | BlockCommitmentEvent.rejected _ _ => none)

/-- C9 --- In the commitment-event task, set_finalized_block_height(h) is
called if and only if an Accepted commitment with height h has been
observed on the stream (before any stream error ends the loop): the calls
are exactly the heights of the observed Accepted events, in order, and a
Rejected event never contributes a call. -/
theorem finalized_height_iff_accepted (evs : List (Option BlockCommitmentEvent)) :
    read_commitment_events evs = acceptedHeights (okPrefix evs) ∧
    (∀ h, h ∈ read_commitment_events evs ↔
      ∃ c, BlockCommitmentEvent.accepted c ∈ okPrefix evs ∧ c.height = h) := by
  have heq : read_commitment_events evs = acceptedHeights (okPrefix evs) := by
    induction evs with
    | nil => rfl
    | cons e rest ih =>
      cases e with
      | none => rfl
      | some ev =>
        cases ev with
        | accepted c =>
          simp [read_commitment_events, okPrefix, acceptedHeights,
            List.takeWhile_cons, List.filterMap_cons] at ih ⊢
          exact ih
        | rejected h r =>
          simp [read_commitment_events, okPrefix, acceptedHeights,
            List.takeWhile_cons, List.filterMap_cons] at ih ⊢
          exact ih
  refine ⟨heq, ?_⟩
  intro h
  rw [heq]
  unfold acceptedHeights
  rw [List.mem_filterMap]
  constructor
  · rintro ⟨e, he, hmatch⟩
    cases e with
    | accepted c =>
      simp only [Option.some.injEq] at hmatch
      exact ⟨c, he, hmatch⟩
    | rejected hh r => cases hmatch
  · rintro ⟨c, hc, hh⟩
    exact ⟨BlockCommitmentEvent.accepted c, hc, by simp [hh]⟩
